import Mathlib

/-!
# Verification of the QuickLaunch indexing and visibility core

Shallow embedding of `src/src-tauri/src/lib.rs` (the QuickLaunch Tauri
backend): the shortcut scanning/deduplication pipeline (`scan_apps`), the
hotkey registration failover (`register_hotkey`, `format_shortcut`,
`HOTKEY_CANDIDATES`), the visibility toggle state machine (tray left-click
and hotkey callback), the launch dispatcher (`launch_app`), and the
window-position memory (`save_window_pos` / `restore_window_pos`).

Filesystem traversal, the Tauri runtime and the OS are external effects;
they enter the embedding as explicit inputs (the list of walked entries per
root, oracles for registration / spawn / set-position outcomes).
-/

namespace QuickLaunch

/-- Struct `AppEntry` from lib.rs: one discovered launchable item. -/
structure AppEntry where
  name : String
  path : String
  icon : Option String
  category : String
deriving Repr, DecidableEq

/-- Metadata of one filesystem entry yielded by the `walkdir::WalkDir`
traversal of a root.  `pathStr` is `entry.path().to_string_lossy()`,
`extension` is `path.extension()` (as UTF-8, `none` when absent),
`fileStem` is `path.file_stem()`, and `parentName` is the name of the
file's immediate containing directory (`path.parent().file_name()`) —
the code never reads `parentName`; it is carried so that spec-level
statements about the parent directory can be expressed. -/
structure FileMeta where
  pathStr : String
  extension : Option String
  fileStem : Option String
  parentName : Option String
deriving Repr, DecidableEq

/-- A root directory passed to `scan_apps`.  `existsOnDisk` models
`dir.exists()`, `fileName` models `dir.file_name()` (as UTF-8), and
`walk` is the list of entries produced — in traversal order — by
`WalkDir::new(dir).max_depth(5).follow_links(true)` with erroring
entries already dropped (`filter_map(|e| e.ok())`). -/
structure Dir where
  existsOnDisk : Bool
  fileName : Option String
  walk : List FileMeta
deriving Repr, DecidableEq

/-- Boolean "contiguous subsequence" test on lists: `needle` occurs inside
the haystack.  Used to model Rust's `str::contains` (for valid UTF-8,
byte-level substring containment coincides with character-level
containment, UTF-8 being self-synchronizing). -/
def listContainsSeq [BEq α] (needle : List α) : List α → Bool
  | [] => needle.isEmpty
  | a :: rest => needle.isPrefixOf (a :: rest) || listContainsSeq needle rest

/-- Rust `s.contains(pat)` for strings. -/
def strContains (s pat : String) : Bool :=
  listContainsSeq pat.data s.data

/-- Rust `str::to_lowercase`, character by character (`Char.toLower`
agrees with Rust's lowercasing on ASCII, which covers every noise word
tested below). -/
def lowercase (s : String) : String :=
  ⟨s.data.map Char.toLower⟩

/-- The noise-word test of lib.rs lines 57-58:
`lower.contains("uninstall") || lower.contains("readme") ||
 lower.contains("help") || lower.contains("manual")`. -/
def isNoise (lower : String) : Bool :=
  strContains lower "uninstall" || strContains lower "readme" ||
  strContains lower "help" || strContains lower "manual"

/-- The body of the per-entry loop of `scan_apps` (lib.rs lines 53-60):
skip entries whose extension is not `lnk`; derive `name` from the file
stem (empty string when unavailable); skip noise names (lowercased,
substring match); otherwise build an `AppEntry` whose `category` is the
scanned root directory's own name, defaulting to `"Other"`. -/
def processFile (dir : Dir) (f : FileMeta) : Option AppEntry :=
  if f.extension ≠ some "lnk" then none
  else
    let name := f.fileStem.getD ""
    let lower := lowercase name
    if isNoise lower then none
    else some { name := name, path := f.pathStr, icon := none,
                category := dir.fileName.getD "Other" }

/-- One root's contribution to the accumulator of `scan_apps`
(lib.rs lines 49-61): nothing when the root does not exist, otherwise the
walked entries surviving `processFile`, in traversal order. -/
def scanDir (dir : Dir) : List AppEntry :=
  if dir.existsOnDisk then dir.walk.filterMap (processFile dir) else []

/-- The `apps` accumulator of `scan_apps` right before deduplication:
roots contribute in order (lib.rs lines 47-62). -/
def rawScan : List Dir → List AppEntry
  | [] => []
  | d :: rest => scanDir d ++ rawScan rest

/-- The dedup pass of lib.rs lines 63-64:
`let mut seen = HashSet::new(); apps.retain(|a| seen.insert(a.name.clone()))`.
An entry is kept iff its `name` (exact string) was not seen before; kept
names are added to `seen`. -/
def dedupByName (seen : List String) : List AppEntry → List AppEntry
  | [] => []
  | a :: rest =>
    if a.name ∈ seen then dedupByName seen rest
    else a :: dedupByName (a.name :: seen) rest

/-- Comparison key of the final sort, lib.rs line 65:
`apps.sort_by(|a, b| a.name.cmp(&b.name))` — ascending by `name` under
the string order (on valid UTF-8, Rust's byte-wise order and the
code-point order used by Lean's `String` order coincide). -/
def nameLE (a b : AppEntry) : Prop := a.name ≤ b.name

instance : DecidableRel nameLE :=
  fun a b => decidable_of_iff (a.name.data ≤ b.name.data) String.le_iff_toList_le.symm

instance : IsTotal AppEntry nameLE := ⟨fun a b => le_total a.name b.name⟩

instance : IsTrans AppEntry nameLE := ⟨fun _ _ _ h₁ h₂ => le_trans h₁ h₂⟩

/-- Function `scan_apps` from lib.rs lines 46-67: accumulate over the roots,
deduplicate by `name` keeping the first occurrence, sort ascending by
`name`.  Rust's `sort_by` is a stable sort; `List.insertionSort` is the
stable sort of the Lean library. -/
def scan_apps (dirs : List Dir) : List AppEntry :=
  List.insertionSort nameLE (dedupByName [] (rawScan dirs))

/-- Command `get_apps` from lib.rs lines 113-117: an infallible command returning
`scan_apps` of the resolved start-menu roots (`dirs` stands for the result
of `get_start_menu_dirs()` resolved against the filesystem). -/
def get_apps (dirs : List Dir) : Except String (List AppEntry) :=
  Except.ok (scan_apps dirs)

/-! ## Visibility state machine

The popup window is either visible or hidden (`win.is_visible()`), and the
toggle bodies in `build_tray`'s left-click handler (lib.rs lines 225-237)
and in the hotkey callback (lib.rs lines 261-270) are the same code:
`if visible { hide } else { center; show; set_focus; emit("reset-search") }`. -/

/-- Visibility of the main popup window. -/
inductive Visibility where
  | Hidden
  | Shown
deriving Repr, DecidableEq

/-- Observable window-surface operations performed by the handlers. -/
inductive Action where
  | RepositionCenter
  | Show
  | Focus
  | EmitResetSearch
  | Hide
deriving Repr, DecidableEq, BEq

/-- The toggle body shared by the tray left-click handler (lib.rs lines
225-237) and the hotkey callback (lib.rs lines 261-270): when visible,
hide; when hidden, center, show, focus and emit one `reset-search`. -/
def toggleStep : Visibility → Visibility × List Action
  | .Shown => (.Hidden, [.Hide])
  | .Hidden => (.Shown, [.RepositionCenter, .Show, .Focus, .EmitResetSearch])

/-- Function `setup` (lib.rs lines 304-312) centers the window and immediately
hides it before building the tray and registering the hotkey, so the
window state entering the event loop is hidden. -/
def setup_visibility : Visibility × List Action :=
  (.Hidden, [.RepositionCenter, .Hide])

/-- The two transition states delivered by the global-shortcut plugin for
one physical keystroke. -/
inductive ShortcutState where
  | Pressed
  | Released
deriving Repr, DecidableEq

/-- The hotkey callback of `register_hotkey` (lib.rs lines 256-271):
`if event.state() != ShortcutState::Pressed { return; }` and otherwise the
toggle body. -/
def hotkey_callback (st : ShortcutState) (v : Visibility) :
    Visibility × List Action :=
  if st ≠ ShortcutState.Pressed then (v, []) else toggleStep v

/-! ## Hotkey registration -/

/-- The modifier set of a shortcut (`tauri_plugin_global_shortcut::Modifiers`),
restricted to the four flags `format_shortcut` inspects. -/
structure Modifiers where
  control : Bool
  alt : Bool
  shift : Bool
  superKey : Bool
deriving Repr, DecidableEq

/-- The modifier set `Modifiers::CONTROL.union(Modifiers::SHIFT)`. -/
def ctrlShift : Modifiers :=
  { control := true, alt := false, shift := true, superKey := false }

/-- Key codes appearing in the candidate list (with a catch-all for the
`_ => "?"` arm of `format_shortcut`). -/
inductive Code where
  | Space
  | F1
  | KeyQ
  | OtherKey
deriving Repr, DecidableEq

/-- A hotkey candidate: a (modifier-set, key-code) pair. -/
abbrev HotkeyCandidate := Option Modifiers × Code

/-- Constant `HOTKEY_CANDIDATES` (lib.rs lines 245-249). -/
def HOTKEY_CANDIDATES : List HotkeyCandidate :=
  [(some ctrlShift, Code.Space), (some ctrlShift, Code.F1), (some ctrlShift, Code.KeyQ)]

/-- Function `format_shortcut` (lib.rs lines 287-302): human-readable label of a
candidate, `"+"`-joined modifier names followed by the key name. -/
def format_shortcut (mods : Option Modifiers) (key : Code) : String :=
  let parts : List String :=
    match mods with
    | some m =>
      (if m.control then ["Ctrl"] else []) ++ (if m.alt then ["Alt"] else []) ++
      (if m.shift then ["Shift"] else []) ++ (if m.superKey then ["Win"] else [])
    | none => []
  let parts := parts ++ [match key with
    | Code.Space => "Space"
    | Code.F1 => "F1"
    | Code.KeyQ => "Q"
    | Code.OtherKey => "?"]
  String.intercalate "+" parts

/-- Events `register_hotkey` emits toward the frontend. -/
inductive AppEvent where
  | hotkeyRegistered (label : String)
  | hotkeyFailed (message : String)
deriving Repr, DecidableEq

/-- The message emitted with `hotkey-failed` (lib.rs line 284). -/
def HOTKEY_FAIL_MSG : String :=
  "所有热键均被占用，请通过系统托盘图标打开启动器"

/-- The candidate loop of `register_hotkey` (lib.rs lines 253-284),
with the outcome of `global_shortcut().on_shortcut` for each candidate
supplied by the oracle `regOk`.  Returns the candidates attempted (in
order) and the events emitted: on the first successful registration,
emit `hotkey-registered` with the candidate's label and return; if the
list is exhausted, emit `hotkey-failed`. -/
def register_hotkey_go (regOk : HotkeyCandidate → Bool) :
    List HotkeyCandidate → List HotkeyCandidate × List AppEvent
  | [] => ([], [AppEvent.hotkeyFailed HOTKEY_FAIL_MSG])
  | c :: rest =>
    if regOk c then ([c], [AppEvent.hotkeyRegistered (format_shortcut c.1 c.2)])
    else
      let r := register_hotkey_go regOk rest
      (c :: r.1, r.2)

/-- Function `register_hotkey` (lib.rs lines 251-285): the loop over
`HOTKEY_CANDIDATES`. -/
def register_hotkey (regOk : HotkeyCandidate → Bool) :
    List HotkeyCandidate × List AppEvent :=
  register_hotkey_go regOk HOTKEY_CANDIDATES

/-! ## Launch dispatcher -/

/-- Compilation target of the `#[cfg(target_os = "windows")]` attribute. -/
inductive Platform where
  | windows
  | other
deriving Repr, DecidableEq

/-- Command `launch_app` (lib.rs lines 125-133).  On Windows the body spawns
`cmd /C start "" <path>`; the outcome of `Command::spawn()` is supplied
as an oracle (`some e` = spawn failed with error rendered as `e`,
`none` = spawn succeeded) and a failure is mapped to `Err(e.to_string())`
by `?`.  On any other platform the `#[cfg]` removes the spawn statement
entirely and the function returns `Ok(())`. -/
def launch_app (platform : Platform) (spawnErr : Option String)
    (path : String) : Except String Unit :=
  match platform with
  | .windows =>
    match spawnErr with
    | some e => Except.error e
    | none => Except.ok ()
  | .other => Except.ok ()

/-! ## Window position memory -/

/-- Struct `WindowPos` from lib.rs: pixels from the top-left of the monitor.
Rust stores `i32`; the claims' coordinates are far from the `i32` range
bounds, so machine integers are modelled by `Int`. -/
structure WindowPos where
  x : Int
  y : Int
deriving Repr, DecidableEq

/-- Size of a monitor or of the window (`monitor.size()`,
`window.outer_size()`), in physical pixels. -/
structure ScreenSize where
  width : Int
  height : Int
deriving Repr, DecidableEq

/-- Positioning requests issued to the window. -/
inductive WinAction where
  | SetPosition (x y : Int)
deriving Repr, DecidableEq

/-- Function `center_window_on_screen` (lib.rs lines 188-196): when monitor
information is available, set the position to
`((s.width - w.width) / 2, s.height / 2 - w.height / 2 - 80)`
(`i32` division truncating toward zero, hence `Int.tdiv`); when it is not,
do nothing.  `winSize` models `window.outer_size().unwrap_or_default()`. -/
def center_window_on_screen (monitor : Option ScreenSize)
    (winSize : ScreenSize) : List WinAction :=
  match monitor with
  | some s =>
    [WinAction.SetPosition (Int.tdiv (s.width - winSize.width) 2)
      (Int.tdiv s.height 2 - Int.tdiv winSize.height 2 - 80)]
  | none => []

/-- Command `save_window_pos` (lib.rs lines 148-156): read the window's outer
position (oracle: `Except`), store it into `state.last_pos` on success,
propagate the error otherwise (state unchanged). -/
def save_window_pos (outerPos : Except String WindowPos)
    (lastPos : Option WindowPos) :
    Except String Unit × Option WindowPos :=
  match outerPos with
  | .error e => (.error e, lastPos)
  | .ok p => (.ok (), some p)

/-- Command `restore_window_pos` (lib.rs lines 159-170): when a position was
saved, request exactly that position (result is `set_position`'s outcome,
supplied as an oracle); when none was saved, run the centering policy and
return `Ok(())`. -/
def restore_window_pos (setPosOk : Except String Unit)
    (monitor : Option ScreenSize) (winSize : ScreenSize)
    (lastPos : Option WindowPos) :
    Except String Unit × List WinAction :=
  match lastPos with
  | some p => (setPosOk, [WinAction.SetPosition p.x p.y])
  | none => (.ok (), center_window_on_screen monitor winSize)

/-! ## Concrete inputs used by the witnesses and counterexamples -/

/-- Modelled from the spec's words, for comparison with the code: "Assign
`category` from the immediate containing directory's name; default to a
constant Other label if unavailable." -/
def category_from_spec (f : FileMeta) : String :=
  f.parentName.getD "Other"

/-- A shortcut file one level below the scanned root: its immediate
containing directory is `Sub`, while the scanned root is `Root`. -/
def subApp : FileMeta :=
  ⟨"C:\\Root\\Sub\\App.lnk", some "lnk", some "App", some "Sub"⟩

/-- A root named `Root` whose walk (depth-bounded, recursive) found
`subApp` inside the subdirectory `Sub`. -/
def subAppRoot : Dir := ⟨true, some "Root", [subApp]⟩

/-- Two roots each holding a shortcut deriving the name `App`, with
different categories: the root scanned first. -/
def dupRootA : Dir :=
  ⟨true, some "RootA", [⟨"A\\App.lnk", some "lnk", some "App", some "RootA"⟩]⟩

/-- The root scanned second. -/
def dupRootB : Dir :=
  ⟨true, some "RootB", [⟨"B\\App.lnk", some "lnk", some "App", some "RootB"⟩]⟩

/-- The entry derived from the first root's shortcut. -/
def dupFirstEntry : AppEntry := ⟨"App", "A\\App.lnk", none, "RootA"⟩

/-- A shortcut named `Helper.lnk`: `helper` contains `help` as a
substring although it is not the word `help`. -/
def helperFile : FileMeta :=
  ⟨"P\\Helper.lnk", some "lnk", some "Helper", some "Programs"⟩

/-- A root whose walk found `helperFile`. -/
def helperRoot : Dir := ⟨true, some "Programs", [helperFile]⟩

/-- An oracle under which only the third candidate registers. -/
def regOkOnlyQ : HotkeyCandidate → Bool := fun c => decide (c.2 = Code.KeyQ)

/-- A root containing both `App.lnk` and `app.lnk`. -/
def caseRoot : Dir :=
  ⟨true, some "R",
    [⟨"R\\App.lnk", some "lnk", some "App", some "R"⟩,
     ⟨"R\\app.lnk", some "lnk", some "app", some "R"⟩]⟩

/-! ## Sanity evaluation of the pipeline on a concrete root -/

/-- Concrete end-to-end run: non-`lnk` entries and noise names are
dropped, the first `A` wins, and the result is sorted. -/
theorem scan_apps_concrete_run :
    scan_apps [⟨true, some "Programs",
      [⟨"P\\B.lnk", some "lnk", some "B", some "Programs"⟩,
       ⟨"P\\A.lnk", some "lnk", some "A", some "Programs"⟩,
       ⟨"P\\Helper.lnk", some "lnk", some "Helper", some "Programs"⟩,
       ⟨"P\\A2.lnk", some "lnk", some "A", some "Programs"⟩,
       ⟨"P\\note.txt", some "txt", some "note", some "Programs"⟩]⟩] =
    [⟨"A", "P\\A.lnk", none, "Programs"⟩, ⟨"B", "P\\B.lnk", none, "Programs"⟩] := by
  decide

/-- The noise test is a substring test, and the shortcut label formatting
joins modifier names with `+`. -/
theorem isNoise_substring_examples :
    isNoise "helper" = true ∧ isNoise "visual studio" = false ∧
    format_shortcut (some ctrlShift) Code.Space = "Ctrl+Shift+Space" := by
  decide

/-! ## Lemmas about the deduplication pass -/

/-- An entry surviving the dedup pass has a name outside `seen`. -/
theorem mem_dedupByName_not_seen (l : List AppEntry) :
    ∀ (seen : List String) (a : AppEntry), a ∈ dedupByName seen l → a.name ∉ seen := by
  induction l with
  | nil => intro seen a h; simp [dedupByName] at h
  | cons b rest ih =>
    intro seen a h
    by_cases hb : b.name ∈ seen
    · rw [dedupByName, if_pos hb] at h
      exact ih seen a h
    · rw [dedupByName, if_neg hb] at h
      rcases List.mem_cons.mp h with rfl | h'
      · exact hb
      · intro hs
        exact ih _ a h' (List.mem_cons_of_mem _ hs)

/-- The dedup pass leaves no two entries with the same name. -/
theorem dedupByName_names_nodup (l : List AppEntry) :
    ∀ seen : List String, ((dedupByName seen l).map (fun a => a.name)).Nodup := by
  induction l with
  | nil => intro seen; simp [dedupByName]
  | cons b rest ih =>
    intro seen
    by_cases hb : b.name ∈ seen
    · rw [dedupByName, if_pos hb]; exact ih seen
    · rw [dedupByName, if_neg hb]
      simp only [List.map_cons, List.nodup_cons]
      refine ⟨?_, ih _⟩
      intro hmem
      rcases List.mem_map.mp hmem with ⟨a, ha, hname⟩
      have := mem_dedupByName_not_seen rest _ a ha
      rw [hname] at this
      exact this (List.mem_cons_self _ _)

/-- The dedup pass only keeps entries of the input list. -/
theorem mem_of_mem_dedupByName (l : List AppEntry) :
    ∀ (seen : List String) (a : AppEntry), a ∈ dedupByName seen l → a ∈ l := by
  induction l with
  | nil => intro seen a h; simp [dedupByName] at h
  | cons b rest ih =>
    intro seen a h
    by_cases hb : b.name ∈ seen
    · rw [dedupByName, if_pos hb] at h
      exact List.mem_cons_of_mem _ (ih seen a h)
    · rw [dedupByName, if_neg hb] at h
      rcases List.mem_cons.mp h with rfl | h'
      · exact List.mem_cons_self _ _
      · exact List.mem_cons_of_mem _ (ih _ a h')

/-- Every name of the input list survives the dedup pass (unless already
seen). -/
theorem name_mem_dedupByName (l : List AppEntry) :
    ∀ (seen : List String) (n : String), n ∉ seen →
      n ∈ l.map (fun a => a.name) →
      n ∈ (dedupByName seen l).map (fun a => a.name) := by
  induction l with
  | nil => intro seen n _ h; simp at h
  | cons b rest ih =>
    intro seen n hn h
    by_cases hbn : b.name = n
    · have hb : b.name ∉ seen := by rw [hbn]; exact hn
      rw [dedupByName, if_neg hb]
      rw [List.map_cons, hbn]
      exact List.mem_cons_self _ _
    · have h' : n ∈ rest.map (fun a => a.name) := by
        rcases List.mem_map.mp h with ⟨a, ha, hna⟩
        rcases List.mem_cons.mp ha with rfl | ha'
        · exact absurd hna hbn
        · rw [← hna]
          exact List.mem_map_of_mem _ ha'
      by_cases hb : b.name ∈ seen
      · rw [dedupByName, if_pos hb]
        exact ih seen n hn h'
      · rw [dedupByName, if_neg hb]
        rw [List.map_cons]
        refine List.mem_cons_of_mem _ (ih _ n ?_ h')
        intro hc
        rcases List.mem_cons.mp hc with rfl | hc'
        · exact hbn rfl
        · exact hn hc'

/-- The dedup pass does not change which entry is found first for a given
name. -/
theorem dedupByName_find?_eq (l : List AppEntry) :
    ∀ (seen : List String) (n : String), n ∉ seen →
      (dedupByName seen l).find? (fun b => decide (b.name = n)) =
        l.find? (fun b => decide (b.name = n)) := by
  induction l with
  | nil => intro seen n _; rfl
  | cons b rest ih =>
    intro seen n hn
    by_cases hbn : b.name = n
    · have hb : b.name ∉ seen := by rw [hbn]; exact hn
      rw [dedupByName, if_neg hb]
      rw [List.find?_cons_of_pos _ (by simpa using hbn),
        List.find?_cons_of_pos _ (by simpa using hbn)]
    · have hnext : ∀ s : List String, n ∉ s → n ∉ b.name :: s := by
        intro s hs hc
        rcases List.mem_cons.mp hc with rfl | hc'
        · exact hbn rfl
        · exact hs hc'
      by_cases hb : b.name ∈ seen
      · rw [dedupByName, if_pos hb,
          List.find?_cons_of_neg _ (by simpa using hbn), ih seen n hn]
      · rw [dedupByName, if_neg hb,
          List.find?_cons_of_neg _ (by simpa using hbn),
          List.find?_cons_of_neg _ (by simpa using hbn)]
        exact ih _ n (hnext seen hn)

/-! ## Lemmas about the accumulation pass -/

/-- Membership in the accumulator decomposes into the contributing root. -/
theorem mem_rawScan {dirs : List Dir} {a : AppEntry} (h : a ∈ rawScan dirs) :
    ∃ d ∈ dirs, a ∈ scanDir d := by
  induction dirs with
  | nil => simp [rawScan] at h
  | cons d rest ih =>
    rw [rawScan] at h
    rcases List.mem_append.mp h with h1 | h2
    · exact ⟨d, List.mem_cons_self _ _, h1⟩
    · rcases ih h2 with ⟨d', hd', ha⟩
      exact ⟨d', List.mem_cons_of_mem _ hd', ha⟩

/-- Membership in one root's contribution decomposes into the walked file
it came from. -/
theorem mem_scanDir {d : Dir} {a : AppEntry} (h : a ∈ scanDir d) :
    ∃ f ∈ d.walk, processFile d f = some a := by
  unfold scanDir at h
  split at h
  · exact List.mem_filterMap.mp h
  · simp at h

/-- An entry built by `processFile` carries the root directory's name as
its category, and a non-noise stem as its name. -/
theorem processFile_fields {d : Dir} {f : FileMeta} {a : AppEntry}
    (h : processFile d f = some a) :
    a.name = f.fileStem.getD "" ∧
    a.category = d.fileName.getD "Other" ∧
    isNoise (lowercase a.name) = false := by
  by_cases hext : f.extension ≠ some "lnk"
  · rw [processFile, if_pos hext] at h
    exact absurd h (by simp)
  · have h' : (if isNoise (lowercase (f.fileStem.getD "")) = true then none
        else some { name := f.fileStem.getD "", path := f.pathStr, icon := none,
                    category := d.fileName.getD "Other" : AppEntry }) = some a := by
      rw [processFile, if_neg hext] at h
      exact h
    by_cases hnoise : isNoise (lowercase (f.fileStem.getD "")) = true
    · rw [if_pos hnoise] at h'
      exact absurd h' (by simp)
    · rw [if_neg hnoise] at h'
      cases h'
      refine ⟨rfl, rfl, ?_⟩
      simpa using hnoise

/-! ## Lemmas about the full pipeline -/

/-- Membership in the final result coincides with membership after dedup
(the sort permutes). -/
theorem mem_scan_apps_iff {dirs : List Dir} {a : AppEntry} :
    a ∈ scan_apps dirs ↔ a ∈ dedupByName [] (rawScan dirs) :=
  (List.perm_insertionSort nameLE _).mem_iff

/-- Every entry of the final result is an entry of the accumulator. -/
theorem mem_rawScan_of_mem_scan_apps {dirs : List Dir} {a : AppEntry}
    (h : a ∈ scan_apps dirs) : a ∈ rawScan dirs :=
  mem_of_mem_dedupByName _ _ _ (mem_scan_apps_iff.mp h)

/-- The final result has pairwise-distinct names. -/
theorem scan_apps_names_nodup (dirs : List Dir) :
    ((scan_apps dirs).map (fun a => a.name)).Nodup := by
  have hperm :=
    (List.perm_insertionSort nameLE (dedupByName [] (rawScan dirs))).map
      (fun a => a.name)
  exact hperm.nodup_iff.mpr (dedupByName_names_nodup _ [])

/-- The final result is sorted by `nameLE`. -/
theorem scan_apps_sorted (dirs : List Dir) :
    List.Sorted nameLE (scan_apps dirs) :=
  List.sorted_insertionSort nameLE _

/-- Sorted + distinct names = strictly ascending names. -/
theorem pairwise_lt_of_sorted_nodup {l : List AppEntry}
    (hs : List.Sorted nameLE l) (hn : (l.map (fun a => a.name)).Nodup) :
    l.Pairwise (fun a b => a.name < b.name) := by
  have hne : l.Pairwise (fun a b => a.name ≠ b.name) := List.pairwise_map.mp hn
  exact (hs.and hne).imp fun h => lt_of_le_of_ne h.1 h.2

/-- Evaluation of `processFile` on a `.lnk` candidate, with the extension test discharged. -/
theorem processFile_eq (d : Dir) (f : FileMeta)
    (hext : f.extension = some "lnk") :
    processFile d f =
      (if isNoise (lowercase (f.fileStem.getD "")) = true then none
       else some { name := f.fileStem.getD "", path := f.pathStr, icon := none,
                   category := d.fileName.getD "Other" }) := by
  rw [processFile, if_neg (by simp [hext])]

/-! ## Lemmas about hotkey registration -/

/-- The loop attempts exactly the failing front of the list plus the first
successful candidate, if any. -/
theorem register_hotkey_go_attempted (regOk : HotkeyCandidate → Bool)
    (cands : List HotkeyCandidate) :
    (register_hotkey_go regOk cands).1 =
      cands.takeWhile (fun c => !(regOk c)) ++ (cands.find? regOk).toList := by
  induction cands with
  | nil => rfl
  | cons c rest ih =>
    by_cases h : regOk c
    · simp [register_hotkey_go, h, List.takeWhile_cons, List.find?_cons_of_pos _ h]
    · have hb : regOk c = false := by simpa using h
      have hfind : List.find? regOk (c :: rest) = List.find? regOk rest :=
        List.find?_cons_of_neg _ (by simp [hb])
      have htake : List.takeWhile (fun x => !regOk x) (c :: rest) =
          c :: List.takeWhile (fun x => !regOk x) rest := by
        simp [List.takeWhile_cons, hb]
      simp [register_hotkey_go, hb, hfind, htake, ih]

/-- The loop emits exactly one event: `hotkey-registered` with the first
successful candidate's label, or `hotkey-failed` when none succeeds. -/
theorem register_hotkey_go_events (regOk : HotkeyCandidate → Bool)
    (cands : List HotkeyCandidate) :
    (match cands.find? regOk with
     | some c => (register_hotkey_go regOk cands).2 =
         [AppEvent.hotkeyRegistered (format_shortcut c.1 c.2)]
     | none => (register_hotkey_go regOk cands).2 =
         [AppEvent.hotkeyFailed HOTKEY_FAIL_MSG]) := by
  induction cands with
  | nil => rfl
  | cons c rest ih =>
    by_cases h : regOk c
    · rw [List.find?_cons_of_pos _ h]
      simp [register_hotkey_go, h]
    · have hb : regOk c = false := by simpa using h
      rw [List.find?_cons_of_neg _ (by simp [hb])]
      have h2 : (register_hotkey_go regOk (c :: rest)).2 =
          (register_hotkey_go regOk rest).2 := by
        simp [register_hotkey_go, hb]
      cases hf : rest.find? regOk with
      | some x =>
        simp only [hf] at ih
        rw [h2]
        exact ih
      | none =>
        simp only [hf] at ih
        rw [h2]
        exact ih

/-! ## The claims -/

/-- C1: For every list of root directories, the list returned by
`scan_apps` (and hence by `get_apps`) contains no two entries with the
same name, and is sorted strictly ascending by `name` under case-sensitive
string comparison (Lean's code-point order on `String`, which on valid
UTF-8 coincides with Rust's byte-wise order). -/
theorem scan_apps_nodup_sorted (dirs : List Dir) :
    ((scan_apps dirs).map (fun a => a.name)).Nodup ∧
    (scan_apps dirs).Pairwise (fun a b => a.name < b.name) ∧
    get_apps dirs = Except.ok (scan_apps dirs) :=
  ⟨scan_apps_names_nodup dirs,
   pairwise_lt_of_sorted_nodup (scan_apps_sorted dirs) (scan_apps_names_nodup dirs),
   rfl⟩

/-- C2 counterexample: the code assigns `category` from the scanned root
directory's name (`dir.file_name()`, lib.rs line 59), not from the
shortcut file's immediate parent: for a shortcut found at
`C:\x5cRoot\x5cSub\x5cApp.lnk` while scanning the root `Root`, the produced
category is `"Root"`, whereas the immediate containing directory is
`"Sub"`. -/
theorem scan_apps_category_not_parent_dir :
    (scan_apps [subAppRoot]).map (fun a => a.category) = ["Root"] ∧
    category_from_spec subApp = "Sub" ∧
    ("Root" : String) ≠ "Sub" := by
  decide

/-- C2 (amended): every entry produced by `scan_apps` has as `category`
the name of the scanned root directory it was found under (the `dir` of
the outer loop), defaulting to the constant label `"Other"` when that
name is unavailable. -/
theorem scan_apps_category_from_root (dirs : List Dir) (a : AppEntry)
    (h : a ∈ scan_apps dirs) :
    ∃ d ∈ dirs, a.category = d.fileName.getD "Other" := by
  rcases mem_rawScan (mem_rawScan_of_mem_scan_apps h) with ⟨d, hd, ha⟩
  rcases mem_scanDir ha with ⟨f, _, hpf⟩
  exact ⟨d, hd, (processFile_fields hpf).2.1⟩

/-- Witness for the amended C2 at a concrete input. -/
theorem scan_apps_category_from_root_witness :
    ∃ d ∈ [subAppRoot],
      (⟨"App", "C:\\Root\\Sub\\App.lnk", none, "Root"⟩ : AppEntry).category =
        d.fileName.getD "Other" :=
  scan_apps_category_from_root [subAppRoot]
    ⟨"App", "C:\\Root\\Sub\\App.lnk", none, "Root"⟩ (by decide)

/-- C3: when several scanned shortcut files derive the same name, the
entry surviving in `scan_apps` is exactly the first occurrence in
traversal order (earlier roots and earlier-walked entries win), with its
path and category, and it is the only entry with that name. -/
theorem scan_apps_first_occurrence_wins (dirs : List Dir) (a : AppEntry)
    (h : (rawScan dirs).find? (fun b => decide (b.name = a.name)) = some a) :
    a ∈ scan_apps dirs ∧
    ∀ b ∈ scan_apps dirs, b.name = a.name → b = a := by
  have hfd : (dedupByName [] (rawScan dirs)).find?
      (fun b => decide (b.name = a.name)) = some a := by
    rw [dedupByName_find?_eq _ [] _ (List.not_mem_nil _)]
    exact h
  have hmem : a ∈ scan_apps dirs :=
    mem_scan_apps_iff.mpr (List.mem_of_find?_eq_some hfd)
  refine ⟨hmem, fun b hb hname => ?_⟩
  exact List.inj_on_of_nodup_map (scan_apps_names_nodup dirs) hb hmem hname

/-- Witness for C3 at a concrete input: with two roots each containing an
`App.lnk`, the survivor is the first root's entry. -/
theorem scan_apps_first_occurrence_wins_witness :
    dupFirstEntry ∈ scan_apps [dupRootA, dupRootB] ∧
    ∀ b ∈ scan_apps [dupRootA, dupRootB],
      b.name = dupFirstEntry.name → b = dupFirstEntry :=
  scan_apps_first_occurrence_wins [dupRootA, dupRootB] dupFirstEntry (by decide)

/-- C4: for a candidate file with the `lnk` extension, the per-entry loop
rejects it exactly when its lowercased stem contains one of the
substrings `uninstall`, `readme`, `help`, `manual` (case-insensitive
substring match, not whole-word), and every entry of the final result
has a name free of those substrings. -/
theorem noise_filter_semantics (d : Dir) (f : FileMeta)
    (hext : f.extension = some "lnk") (dirs : List Dir) :
    (processFile d f = none ↔ isNoise (lowercase (f.fileStem.getD "")) = true) ∧
    ∀ a ∈ scan_apps dirs, isNoise (lowercase a.name) = false := by
  refine ⟨?_, fun a ha => ?_⟩
  · rw [processFile_eq d f hext]
    by_cases hnoise : isNoise (lowercase (f.fileStem.getD "")) = true
    · simp [hnoise]
    · simp [hnoise]
  · rcases mem_rawScan (mem_rawScan_of_mem_scan_apps ha) with ⟨d', _, ha'⟩
    rcases mem_scanDir ha' with ⟨f', _, hpf⟩
    exact (processFile_fields hpf).2.2

/-- Witness for C4 at a concrete input: `Helper.lnk` is rejected by the
substring semantics. -/
theorem noise_filter_semantics_witness :
    ((processFile helperRoot helperFile = none ↔
        isNoise (lowercase (helperFile.fileStem.getD "")) = true) ∧
      ∀ a ∈ scan_apps [helperRoot], isNoise (lowercase a.name) = false) ∧
    processFile helperRoot helperFile = none :=
  ⟨noise_filter_semantics helperRoot helperFile (by decide) [helperRoot],
   (noise_filter_semantics helperRoot helperFile (by decide) [helperRoot]).1.mpr
     (by decide)⟩

/-- C5: the visibility state machine starts hidden (`setup` centers and
then hides the window), a toggle while hidden centers, shows, focuses and
emits exactly one `reset-search` (moving to shown), and a toggle while
shown hides the window and emits none (returning to hidden). -/
theorem visibility_toggle_cycle :
    setup_visibility.1 = Visibility.Hidden ∧
    toggleStep Visibility.Hidden =
      (Visibility.Shown,
        [Action.RepositionCenter, Action.Show, Action.Focus, Action.EmitResetSearch]) ∧
    (toggleStep Visibility.Hidden).2.count Action.EmitResetSearch = 1 ∧
    toggleStep Visibility.Shown = (Visibility.Hidden, [Action.Hide]) ∧
    (toggleStep Visibility.Shown).2.count Action.EmitResetSearch = 0 := by
  decide

/-- C6: a hotkey callback invocation with the `Released` transition (the
only non-`Pressed` transition state) performs no visibility transition
and emits no action; only a `Pressed` transition runs the toggle body. -/
theorem hotkey_callback_filters_transitions (v : Visibility) :
    hotkey_callback ShortcutState.Released v = (v, []) ∧
    hotkey_callback ShortcutState.Pressed v = toggleStep v :=
  ⟨rfl, rfl⟩

/-- C7: hotkey registration tries the fixed candidate list in order and
stops at the first success, emitting exactly one `hotkey-registered`
event with that candidate's human-readable label; it emits the
`hotkey-failed` event (and no `hotkey-registered`) if and only if every
candidate fails. -/
theorem register_hotkey_correct (regOk : HotkeyCandidate → Bool) :
    (register_hotkey regOk).1 =
      HOTKEY_CANDIDATES.takeWhile (fun c => !(regOk c)) ++
        (HOTKEY_CANDIDATES.find? regOk).toList ∧
    (match HOTKEY_CANDIDATES.find? regOk with
     | some c => (register_hotkey regOk).2 =
         [AppEvent.hotkeyRegistered (format_shortcut c.1 c.2)]
     | none => (register_hotkey regOk).2 =
         [AppEvent.hotkeyFailed HOTKEY_FAIL_MSG]) ∧
    ((register_hotkey regOk).2 = [AppEvent.hotkeyFailed HOTKEY_FAIL_MSG] ↔
      ∀ c ∈ HOTKEY_CANDIDATES, regOk c = false) := by
  refine ⟨register_hotkey_go_attempted regOk _,
    register_hotkey_go_events regOk _, ?_⟩
  have hev := register_hotkey_go_events regOk HOTKEY_CANDIDATES
  cases hf : HOTKEY_CANDIDATES.find? regOk with
  | some c =>
    simp only [hf] at hev
    constructor
    · intro hfail
      rw [register_hotkey] at hfail
      rw [hev] at hfail
      exact absurd hfail (by simp)
    · intro hall
      have hnone : HOTKEY_CANDIDATES.find? regOk = none :=
        List.find?_eq_none.mpr (fun x hx => by simp [hall x hx])
      rw [hf] at hnone
      exact absurd hnone (by simp)
  | none =>
    simp only [hf] at hev
    refine ⟨fun _ c hc => ?_, fun _ => hev⟩
    have := List.find?_eq_none.mp hf c hc
    simpa using this

/-- Witness for C7 at concrete oracles: first two candidates fail, the
third registers with label `Ctrl+Shift+Q`; with all candidates failing,
only `hotkey-failed` is emitted. -/
theorem register_hotkey_correct_witness :
    (register_hotkey regOkOnlyQ).2 =
      [AppEvent.hotkeyRegistered "Ctrl+Shift+Q"] ∧
    (register_hotkey (fun _ => false)).2 =
      [AppEvent.hotkeyFailed HOTKEY_FAIL_MSG] := by
  constructor
  · have h : (register_hotkey regOkOnlyQ).2 =
        [AppEvent.hotkeyRegistered (format_shortcut (some ctrlShift) Code.KeyQ)] :=
      (register_hotkey_correct regOkOnlyQ).2.1
    exact h.trans (by decide)
  · exact (register_hotkey_correct (fun _ => false)).2.2.mpr (fun c _ => rfl)

/-- C8 counterexample: on a non-Windows platform the `#[cfg]` attribute
removes the spawn statement, so `launch_app` returns `Ok(())` — silent
success, not an error condition — even when a spawn would have failed. -/
theorem launch_app_nonwindows_silent_ok :
    launch_app Platform.other (some "program not found") "C:\\X.lnk" =
      Except.ok () :=
  rfl

/-- C8 (amended): on Windows, `launch_app` returns the spawn error to the
caller (no retry) when spawning fails, and ok when it succeeds; on a
non-Windows platform the spawn is compiled out and `launch_app` silently
returns ok — a no-op, not a recognized error condition. -/
theorem launch_app_error_handling (path e : String) (spawnErr : Option String) :
    launch_app Platform.windows (some e) path = Except.error e ∧
    launch_app Platform.windows none path = Except.ok () ∧
    launch_app Platform.other spawnErr path = Except.ok () :=
  ⟨rfl, rfl, rfl⟩

/-- C9: `restore_window_pos` with no saved position runs the centering
policy and returns ok; after `save_window_pos` stored (100, 200), a
subsequent `restore_window_pos` requests exactly (100, 200). -/
theorem restore_window_pos_spec (monitor : Option ScreenSize)
    (winSize : ScreenSize) (setPosOk : Except String Unit)
    (st0 : Option WindowPos) :
    restore_window_pos setPosOk monitor winSize none =
      (Except.ok (), center_window_on_screen monitor winSize) ∧
    restore_window_pos (Except.ok ()) monitor winSize
        (save_window_pos (Except.ok ⟨100, 200⟩) st0).2 =
      (Except.ok (), [WinAction.SetPosition 100 200]) :=
  ⟨rfl, rfl⟩

/-- C10: the dedup key is the exact, case-sensitive `name`: two scanned
entries whose derived names differ only in letter case are both retained
in the result (even though the noise filter is case-insensitive). -/
theorem scan_apps_dedup_case_sensitive (dirs : List Dir) (a b : AppEntry)
    (ha : a ∈ rawScan dirs) (hb : b ∈ rawScan dirs)
    (hne : a.name ≠ b.name) (hcase : lowercase a.name = lowercase b.name) :
    a.name ∈ (scan_apps dirs).map (fun x => x.name) ∧
    b.name ∈ (scan_apps dirs).map (fun x => x.name) := by
  have key : ∀ c : AppEntry, c ∈ rawScan dirs →
      c.name ∈ (scan_apps dirs).map (fun x => x.name) := by
    intro c hc
    have hraw : c.name ∈ (rawScan dirs).map (fun x => x.name) :=
      List.mem_map_of_mem _ hc
    have hd : c.name ∈ (dedupByName [] (rawScan dirs)).map (fun x => x.name) :=
      name_mem_dedupByName _ [] _ (List.not_mem_nil _) hraw
    have hperm :=
      (List.perm_insertionSort nameLE (dedupByName [] (rawScan dirs))).map
        (fun x => x.name)
    exact hperm.mem_iff.mpr hd
  exact ⟨key a ha, key b hb⟩

/-- Witness for C10 at a concrete input: `App` and `app` differ only in
case and both survive. -/
theorem scan_apps_dedup_case_sensitive_witness :
    ("App" : String) ∈ (scan_apps [caseRoot]).map (fun x => x.name) ∧
    ("app" : String) ∈ (scan_apps [caseRoot]).map (fun x => x.name) :=
  scan_apps_dedup_case_sensitive [caseRoot]
    ⟨"App", "R\\App.lnk", none, "R"⟩ ⟨"app", "R\\app.lnk", none, "R"⟩
    (by decide) (by decide) (by decide) (by decide)

end QuickLaunch
